import Mathlib

/-!
Verification of the FlyzexBot encrypted state store
(src/flyzexbot/services/storage.py, with src/flyzexbot/services/security.py).

The development is a shallow embedding of the store:

* Python dicts become association lists that keep insertion order
  (Python dicts preserve insertion order); dict assignment updates the
  first matching key in place or appends, dict pop removes the key.
  A real Python dict never holds a duplicate key, so a few theorems
  assume key lists are duplicate-free.
* Timestamps are opaque strings.  format_timestamp reads the wall
  clock, so every mutating operation takes the produced timestamp as
  an explicit argument (the source computes it once per operation and
  this embedding mirrors that by taking a single argument).
* Library functions that live outside the repository (Fernet
  encryption, json.dumps and json.loads, the builtin str and int used
  for dict keys, and datetime parsing inside normalize_timestamp) are
  passed in as function parameters; the theorems that need their
  documented round-trip behaviour take it as an explicit hypothesis.
* Python exceptions become Option or Except results.  Where the
  dynamically typed source would silently store a value of an
  unexpected type, the embedding fails with none; every payload the
  store itself writes is well typed, so the two agree on all inputs
  the claims quantify over.
-/

/-- Association-list lookup: the model of a Python dict read. -/
def alGet {κ α : Type} [BEq κ] (l : List (κ × α)) (k : κ) : Option α :=
  match l with
  | [] => none
  | (k0, v) :: rest => if k0 == k then some v else alGet rest k

/-- Association-list write: the model of a Python dict assignment.
Updates the first entry with the key in place, otherwise appends,
matching insertion-order semantics of Python dicts. -/
def alInsert {κ α : Type} [BEq κ] (l : List (κ × α)) (k : κ) (v : α) : List (κ × α) :=
  match l with
  | [] => [(k, v)]
  | (k0, v0) :: rest => if k0 == k then (k, v) :: rest else (k0, v0) :: alInsert rest k v

/-- Association-list removal: the model of dict.pop(key, None). -/
def alPop {κ α : Type} [BEq κ] (l : List (κ × α)) (k : κ) : List (κ × α) :=
  match l with
  | [] => []
  | (k0, v0) :: rest => if k0 == k then rest else (k0, v0) :: alPop rest k

/-- Keys of an association list. -/
def alKeys {κ α : Type} (l : List (κ × α)) : List κ := l.map Prod.fst

/-- Model of the Python expression "a or b" on optional strings:
None and the empty string are falsy. -/
def pyOr (a b : Option String) : Option String :=
  match a with
  | some s => if s = "" then b else some s
  | none => b

/-- One structured intake answer (class ApplicationResponse). -/
structure ApplicationResponse where
  question_id : String
  question : String
  answer : String
deriving DecidableEq, Repr

/-- A pending membership application (class Application). -/
structure Application where
  user_id : Int
  full_name : String
  username : Option String
  answer : Option String
  created_at : String
  language_code : Option String
  responses : List ApplicationResponse
deriving DecidableEq, Repr

/-- The durable audit record (class ApplicationHistoryEntry). -/
structure ApplicationHistoryEntry where
  status : String
  updated_at : String
  note : Option String
  language_code : Option String
deriving DecidableEq, Repr

/-- An admin profile dict; the source only ever stores the keys
"username" and "full_name", an absent key is modelled as none. -/
structure AdminProfile where
  username : Option String
  full_name : Option String
deriving DecidableEq, Repr

/-- One trophy record appended by add_cup. -/
structure Cup where
  title : String
  description : String
  podium : List String
  created_at : String
deriving DecidableEq, Repr

/-- The in-memory model (class StorageState).  xp and cups are keyed
by the string form of the chat id, exactly as in the source. -/
structure StorageState where
  admins : List Int
  admin_profiles : List (Int × AdminProfile)
  applications : List (Int × Application)
  application_history : List (Int × ApplicationHistoryEntry)
  xp : List (String × List (String × Int))
  cups : List (String × List Cup)
deriving DecidableEq, Repr

/-- The empty default state a fresh Storage instance starts with. -/
def StorageState.initial : StorageState :=
  { admins := [], admin_profiles := [], applications := [],
    application_history := [], xp := [], cups := [] }

/-- Profile with neither field set; Python's empty dict. -/
def AdminProfile.empty : AdminProfile := { username := none, full_name := none }

/-- Storage.add_application: refuses when the history entry says
approved or when a pending application already exists, otherwise
stores the application and a parallel pending history entry, both with
the one timestamp computed at the top of the critical section. -/
def add_application (s : StorageState) (ts : String) (user_id : Int)
    (full_name : String) (username answer : Option String)
    (language_code : Option String) (responses : List ApplicationResponse) :
    Bool × StorageState :=
  let historyApproved :=
    match alGet s.application_history user_id with
    | some entry => entry.status == "approved"
    | none => false
  if historyApproved then (false, s)
  else if (alGet s.applications user_id).isSome then (false, s)
  else
    (true,
      { s with
        applications := alInsert s.applications user_id
          { user_id := user_id, full_name := full_name, username := username,
            answer := answer, created_at := ts, language_code := language_code,
            responses := responses },
        application_history := alInsert s.application_history user_id
          { status := "pending", updated_at := ts, note := none,
            language_code := language_code } })

/-- Storage.pop_application: removes and returns the pending
application; a missing record is an ordinary none result. -/
def pop_application (s : StorageState) (user_id : Int) :
    Option Application × StorageState :=
  match alGet s.applications user_id with
  | none => (none, s)
  | some app => (some app, { s with applications := alPop s.applications user_id })

/-- Storage.withdraw_application: removes the pending application and
records a withdrawn history entry that keeps the application's
language code. -/
def withdraw_application (s : StorageState) (ts : String) (user_id : Int) :
    Bool × StorageState :=
  match alGet s.applications user_id with
  | none => (false, s)
  | some app =>
    (true,
      { s with
        applications := alPop s.applications user_id,
        application_history := alInsert s.application_history user_id
          { status := "withdrawn", updated_at := ts, note := none,
            language_code := app.language_code } })

/-- Storage.mark_application_status: overwrites the history entry,
falling back to the previous entry's language code when the given one
is falsy (None or the empty string, per the Python or-expression). -/
def mark_application_status (s : StorageState) (ts : String) (user_id : Int)
    (status : String) (note : Option String) (language_code : Option String) :
    StorageState :=
  let previous := alGet s.application_history user_id
  let language := pyOr language_code (previous.bind (·.language_code))
  { s with
    application_history := alInsert s.application_history user_id
      { status := status, updated_at := ts, note := note,
        language_code := language } }

/-- The decide flow of the admin adapter (handlers/dm.py): pop the
pending application, then, when one was found, write the approved or
denied status with the optional note, passing the application's own
language code on to mark_application_status. -/
def decide_application (s : StorageState) (ts : String) (user_id : Int)
    (approve : Bool) (note : Option String) :
    Option Application × StorageState :=
  match pop_application s user_id with
  | (none, s1) => (none, s1)
  | (some app, s1) =>
    (some app,
      mark_application_status s1 ts user_id
        (if approve then "approved" else "denied") note app.language_code)

/-- Username cleanup in Storage.add_admin: strip surrounding
whitespace, drop leading at-signs, treat an empty remainder as no
username at all (the source chains two Python truthiness checks). -/
def normalizeUsername (username : Option String) : Option String :=
  match username with
  | none => none
  | some u =>
    let t := u.trim
    if t = "" then none
    else
      let t2 := t.dropWhile (· == '@')
      if t2 = "" then none else some t2

/-- Full-name cleanup in Storage.add_admin: strip whitespace and treat
the empty result as absent. -/
def normalizeFullName (full_name : Option String) : Option String :=
  match full_name with
  | none => none
  | some f => if f.trim = "" then none else some f.trim

/-- Storage.add_admin: registers the admin id and merges non-empty
profile fields, reporting whether anything changed.  When nothing
changed the state is returned untouched (the source inserts an empty
profile dict with setdefault and pops it again before returning). -/
def add_admin (s : StorageState) (user_id : Int)
    (username full_name : Option String) : Bool × StorageState :=
  let nu := normalizeUsername username
  let nf := normalizeFullName full_name
  let profile := (alGet s.admin_profiles user_id).getD AdminProfile.empty
  let adminChanged := !s.admins.contains user_id
  let admins1 := if adminChanged then s.admins ++ [user_id] else s.admins
  let userChanged := nu.isSome && profile.username != nu
  let profile1 := if userChanged then { profile with username := nu } else profile
  let nameChanged := nf.isSome && profile.full_name != nf
  let profile2 := if nameChanged then { profile1 with full_name := nf } else profile1
  let profiles1 :=
    if profile2 == AdminProfile.empty then alPop s.admin_profiles user_id
    else alInsert s.admin_profiles user_id profile2
  if adminChanged || userChanged || nameChanged then
    (true, { s with admins := admins1, admin_profiles := profiles1 })
  else (false, s)

/-- Storage.remove_admin: drops the id from the admin list and its
profile; a missing id is an ordinary false result. -/
def remove_admin (s : StorageState) (user_id : Int) : Bool × StorageState :=
  if s.admins.contains user_id then
    (true, { s with admins := s.admins.erase user_id,
                    admin_profiles := alPop s.admin_profiles user_id })
  else (false, s)

/-- Score of one user in one chat, defaulting to 0, with the string
keys the source uses (a missing chat table reads as the empty dict). -/
def xpScore (s : StorageState) (chat_key user_key : String) : Int :=
  (alGet ((alGet s.xp chat_key).getD []) user_key).getD 0

/-- Storage.add_xp: adds the amount onto the existing score (0 when
absent) and returns the new total it just stored. -/
def add_xp (s : StorageState) (chat_id user_id : Int) (amount : Int) :
    Int × StorageState :=
  let chat_key := toString chat_id
  let user_key := toString user_id
  let chat := (alGet s.xp chat_key).getD []
  let newTotal := (alGet chat user_key).getD 0 + amount
  (newTotal,
    { s with xp := alInsert s.xp chat_key (alInsert chat user_key newTotal) })

/-- Ordering used by the leaderboard: higher score first.  The source
calls the stable Python sorted with the score as key and reverse set,
so equal scores keep their insertion order; a stable descending sort
is uniquely determined, and insertion sort with this relation is one. -/
def scoreGE (a b : String × Int) : Prop := b.2 ≤ a.2

instance : DecidableRel scoreGE := fun a b => inferInstanceAs (Decidable (b.2 ≤ a.2))

instance : IsTotal (String × Int) scoreGE := ⟨fun a b => le_total b.2 a.2⟩

instance : IsTrans (String × Int) scoreGE :=
  ⟨fun _ _ _ h1 h2 => le_trans h2 h1⟩

/-- Python list slicing lst[:limit] for an int limit: a negative limit
drops that many elements from the end. -/
def pySliceTo {α : Type} (l : List α) (limit : Int) : List α :=
  if 0 ≤ limit then l.take limit.toNat
  else l.take (l.length - limit.natAbs)

/-- Storage.get_xp_leaderboard: the chat's scores sorted by score
descending (stable) and cut to the limit. -/
def get_xp_leaderboard (s : StorageState) (chat_id : Int) (limit : Int) :
    List (String × Int) :=
  let scores := (alGet s.xp (toString chat_id)).getD []
  pySliceTo (List.insertionSort scoreGE scores) limit

/-- Storage.add_cup: appends one immutable trophy record to the chat's
list. -/
def add_cup (s : StorageState) (ts : String) (chat_id : Int)
    (title description : String) (podium : List String) : StorageState :=
  let chat_key := toString chat_id
  let cups := (alGet s.cups chat_key).getD []
  let entry : Cup := { title := title, description := description,
                       podium := podium, created_at := ts }
  { s with cups := alInsert s.cups chat_key (cups ++ [entry]) }

/-- One public mutating operation of the store, with the timestamp the
operation would read from the clock where relevant. -/
inductive StoreOp where
  | opAddAdmin (user_id : Int) (username full_name : Option String)
  | opRemoveAdmin (user_id : Int)
  | opAddApplication (ts : String) (user_id : Int) (full_name : String)
      (username answer language_code : Option String)
      (responses : List ApplicationResponse)
  | opPopApplication (user_id : Int)
  | opWithdraw (ts : String) (user_id : Int)
  | opMarkStatus (ts : String) (user_id : Int) (status : String)
      (note language_code : Option String)
  | opAddXp (chat_id user_id amount : Int)
  | opAddCup (ts : String) (chat_id : Int) (title description : String)
      (podium : List String)
deriving DecidableEq, Repr

/-- State transition of one public mutating operation. -/
def applyOp (s : StorageState) : StoreOp → StorageState
  | .opAddAdmin uid u f => (add_admin s uid u f).2
  | .opRemoveAdmin uid => (remove_admin s uid).2
  | .opAddApplication ts uid fn u a lc rs =>
      (add_application s ts uid fn u a lc rs).2
  | .opPopApplication uid => (pop_application s uid).2
  | .opWithdraw ts uid => (withdraw_application s ts uid).2
  | .opMarkStatus ts uid st note lc =>
      mark_application_status s ts uid st note lc
  | .opAddXp c u amt => (add_xp s c u amt).2
  | .opAddCup ts c t d p => add_cup s ts c t d p

/-- States reachable from the empty store through public operations
whose steps satisfy a guard. -/
inductive ReachableFrom (guard : StorageState → StoreOp → Prop) : StorageState → Prop
  | init : ReachableFrom guard StorageState.initial
  | step {s : StorageState} {op : StoreOp} :
      ReachableFrom guard s → guard s op → ReachableFrom guard (applyOp s op)

/-- Unrestricted reachability through the public operations. -/
def Reachable (s : StorageState) : Prop := ReachableFrom (fun _ _ => True) s

/-- Key lists free of duplicates: the well-formedness every real
Python dict enjoys. -/
def NodupKeys {κ α : Type} (l : List (κ × α)) : Prop := (alKeys l).Nodup

instance {κ α : Type} [DecidableEq κ] (l : List (κ × α)) : Decidable (NodupKeys l) :=
  inferInstanceAs (Decidable (alKeys l).Nodup)

theorem alGet_alInsert_self {κ α : Type} [BEq κ] [LawfulBEq κ]
    (l : List (κ × α)) (k : κ) (v : α) : alGet (alInsert l k v) k = some v := by
  induction l with
  | nil => simp [alInsert, alGet]
  | cons hd tl ih =>
    obtain ⟨k0, v0⟩ := hd
    by_cases h : (k0 == k) = true
    · simp [alInsert, alGet, h]
    · simp [alInsert, alGet, h, ih]

theorem alGet_alInsert_ne {κ α : Type} [BEq κ] [LawfulBEq κ]
    (l : List (κ × α)) (k k2 : κ) (v : α) (h : k2 ≠ k) :
    alGet (alInsert l k v) k2 = alGet l k2 := by
  have hne : (k == k2) = false := beq_eq_false_iff_ne.mpr (Ne.symm h)
  induction l with
  | nil => simp [alInsert, alGet, hne]
  | cons hd tl ih =>
    obtain ⟨k0, v0⟩ := hd
    by_cases hh : (k0 == k) = true
    · have hk : k0 = k := eq_of_beq hh
      subst hk
      simp [alInsert, alGet, hne, hh]
    · by_cases hm : (k0 == k2) = true
      · simp [alInsert, alGet, hh, hm]
      · simp [alInsert, alGet, hh, hm, ih]

theorem alGet_alPop_ne {κ α : Type} [BEq κ] [LawfulBEq κ]
    (l : List (κ × α)) (k k2 : κ) (h : k2 ≠ k) :
    alGet (alPop l k) k2 = alGet l k2 := by
  have hne : (k == k2) = false := beq_eq_false_iff_ne.mpr (Ne.symm h)
  induction l with
  | nil => simp [alPop]
  | cons hd tl ih =>
    obtain ⟨k0, v0⟩ := hd
    by_cases hh : (k0 == k) = true
    · have hk : k0 = k := eq_of_beq hh
      subst hk
      simp [alPop, alGet, hne, hh]
    · by_cases hm : (k0 == k2) = true
      · simp [alPop, alGet, hh, hm]
      · simp [alPop, alGet, hh, hm, ih]

theorem alGet_eq_none_of_not_mem {κ α : Type} [BEq κ] [LawfulBEq κ]
    (l : List (κ × α)) (k : κ) (h : k ∉ alKeys l) : alGet l k = none := by
  induction l with
  | nil => simp [alGet]
  | cons hd tl ih =>
    obtain ⟨k0, v0⟩ := hd
    simp only [alKeys, List.map_cons, List.mem_cons, not_or] at h
    have hne : (k0 == k) = false := beq_eq_false_iff_ne.mpr (Ne.symm h.1)
    simp only [alGet, hne, Bool.false_eq_true, if_false]
    exact ih h.2

theorem alGet_alPop_self {κ α : Type} [BEq κ] [LawfulBEq κ]
    (l : List (κ × α)) (k : κ) (hnd : NodupKeys l) :
    alGet (alPop l k) k = none := by
  induction l with
  | nil => simp [alPop, alGet]
  | cons hd tl ih =>
    obtain ⟨k0, v0⟩ := hd
    simp only [NodupKeys, alKeys, List.map_cons, List.nodup_cons] at hnd
    by_cases hh : (k0 == k) = true
    · have hk : k0 = k := eq_of_beq hh
      simp only [alPop, if_pos hh]
      exact alGet_eq_none_of_not_mem tl k (hk ▸ hnd.1)
    · simp only [alPop, if_neg hh, alGet, hh, Bool.false_eq_true, if_false]
      exact ih hnd.2

theorem alKeys_alPop_sublist {κ α : Type} [BEq κ]
    (l : List (κ × α)) (k : κ) : (alKeys (alPop l k)).Sublist (alKeys l) := by
  induction l with
  | nil => simp [alPop]
  | cons hd tl ih =>
    obtain ⟨k0, v0⟩ := hd
    by_cases hh : (k0 == k) = true
    · simp only [alPop, if_pos hh, alKeys, List.map_cons]
      exact List.sublist_cons_self _ _
    · simp only [alPop, if_neg hh, alKeys, List.map_cons]
      exact List.Sublist.cons₂ _ ih

theorem nodupKeys_alPop {κ α : Type} [BEq κ]
    (l : List (κ × α)) (k : κ) (hnd : NodupKeys l) : NodupKeys (alPop l k) :=
  List.Nodup.sublist (alKeys_alPop_sublist l k) hnd

theorem alKeys_alInsert {κ α : Type} [BEq κ] [LawfulBEq κ]
    (l : List (κ × α)) (k : κ) (v : α) :
    alKeys (alInsert l k v) = alKeys l ∨ alKeys (alInsert l k v) = alKeys l ++ [k] := by
  induction l with
  | nil => right; simp [alInsert, alKeys]
  | cons hd tl ih =>
    obtain ⟨k0, v0⟩ := hd
    by_cases hh : (k0 == k) = true
    · left
      have hk : k0 = k := eq_of_beq hh
      simp [alInsert, if_pos hh, alKeys, hk]
    · rcases ih with h1 | h1
      · left
        simp only [alInsert, if_neg hh, alKeys, List.map_cons, List.cons.injEq, true_and]
        exact h1
      · right
        simp only [alInsert, if_neg hh, alKeys, List.map_cons, List.cons_append,
          List.cons.injEq, true_and]
        exact h1

theorem nodupKeys_alInsert {κ α : Type} [BEq κ] [LawfulBEq κ]
    (l : List (κ × α)) (k : κ) (v : α) (hnd : NodupKeys l)
    (h : k ∉ alKeys l) : NodupKeys (alInsert l k v) := by
  rcases alKeys_alInsert l k v with h1 | h1
  · rw [NodupKeys, h1]; exact hnd
  · rw [NodupKeys, h1]
    simp only [List.nodup_append, List.nodup_cons]
    exact ⟨hnd, by simp, by simpa using h⟩

theorem mem_alInsert {κ α : Type} [BEq κ] [LawfulBEq κ]
    (l : List (κ × α)) (k : κ) (v : α) (p : κ × α) (hp : p ∈ alInsert l k v) :
    p = (k, v) ∨ (p ∈ l ∧ p.1 ≠ k) ∨ (p ∈ l ∧ p.1 = k) := by
  induction l with
  | nil =>
    simp only [alInsert, List.mem_singleton] at hp
    exact Or.inl hp
  | cons hd tl ih =>
    obtain ⟨k0, v0⟩ := hd
    by_cases hh : (k0 == k) = true
    · simp only [alInsert, if_pos hh, List.mem_cons] at hp
      rcases hp with h1 | h1
      · exact Or.inl h1
      · by_cases hk : p.1 = k
        · exact Or.inr (Or.inr ⟨List.mem_cons_of_mem _ h1, hk⟩)
        · exact Or.inr (Or.inl ⟨List.mem_cons_of_mem _ h1, hk⟩)
    · simp only [alInsert, if_neg hh, List.mem_cons] at hp
      rcases hp with h1 | h1
      · subst h1
        by_cases hk : (k0, v0).1 = k
        · exact Or.inr (Or.inr ⟨List.mem_cons_self _ _, hk⟩)
        · exact Or.inr (Or.inl ⟨List.mem_cons_self _ _, hk⟩)
      · rcases ih h1 with h2 | h2 | h2
        · exact Or.inl h2
        · exact Or.inr (Or.inl ⟨List.mem_cons_of_mem _ h2.1, h2.2⟩)
        · exact Or.inr (Or.inr ⟨List.mem_cons_of_mem _ h2.1, h2.2⟩)

/-- C2: add_application returns a duplicate failure with the state
unchanged when a pending application exists or the history says
approved; otherwise it stores the application together with a pending
history entry, both carrying the identical timestamp, and returns
true; and a second submit right after a first one always fails. -/
theorem add_application_contract (s : StorageState) (ts ts2 : String) (uid : Int)
    (fn : String) (un ans lc : Option String) (rs : List ApplicationResponse)
    (fn2 : String) (un2 ans2 lc2 : Option String) (rs2 : List ApplicationResponse) :
    (((alGet s.applications uid).isSome = true ∨
        (∃ e, alGet s.application_history uid = some e ∧ e.status = "approved")) →
      add_application s ts uid fn un ans lc rs = (false, s)) ∧
    ((alGet s.applications uid).isSome = false →
      (∀ e, alGet s.application_history uid = some e → e.status ≠ "approved") →
      (add_application s ts uid fn un ans lc rs).1 = true ∧
      alGet (add_application s ts uid fn un ans lc rs).2.applications uid =
        some { user_id := uid, full_name := fn, username := un, answer := ans,
               created_at := ts, language_code := lc, responses := rs } ∧
      alGet (add_application s ts uid fn un ans lc rs).2.application_history uid =
        some { status := "pending", updated_at := ts, note := none,
               language_code := lc }) ∧
    (add_application (add_application s ts uid fn un ans lc rs).2
        ts2 uid fn2 un2 ans2 lc2 rs2).1 = false := by
  refine ⟨?_, ?_, ?_⟩
  · intro hdup
    rcases hdup with hpend | ⟨e, he, hst⟩
    · rcases hh : alGet s.application_history uid with _ | e
      · simp [add_application, hh, hpend]
      · by_cases hst : e.status = "approved" <;> simp [add_application, hh, hst, hpend]
    · simp [add_application, he, hst]
  · intro hpend hnapp
    rcases hh : alGet s.application_history uid with _ | e
    · simp [add_application, hh, hpend, alGet_alInsert_self]
    · have hst : e.status ≠ "approved" := hnapp e hh
      simp [add_application, hh, hst, hpend, alGet_alInsert_self]
  · by_cases h1 : ∃ e, alGet s.application_history uid = some e ∧ e.status = "approved"
    · obtain ⟨e, he, hst⟩ := h1
      simp [add_application, he, hst]
    · rcases hh : alGet s.application_history uid with _ | e
      · by_cases h2 : (alGet s.applications uid).isSome = true
        · simp [add_application, hh, h2]
        · simp [add_application, hh, h2, alGet_alInsert_self]
      · have hst : e.status ≠ "approved" := fun hs => h1 ⟨e, hh, hs⟩
        by_cases h2 : (alGet s.applications uid).isSome = true
        · simp [add_application, hh, hst, h2]
        · simp [add_application, hh, hst, h2, alGet_alInsert_self]

/-- Witness for C2 at a concrete input: a fresh store accepts the
first submission for user 7 and rejects the second. -/
theorem add_application_contract_witness :
    ((alGet StorageState.initial.applications 7).isSome = false ∧
      (add_application StorageState.initial "t1" 7 "User" none (some "hi") none []).1 = true) ∧
    (add_application (add_application StorageState.initial "t1" 7 "User" none
        (some "hi") none []).2 "t2" 7 "User" none (some "hi") none []).1 = false := by
  have h := add_application_contract StorageState.initial "t1" "t2" 7 "User" none
    (some "hi") none [] "User" none (some "hi") none []
  exact ⟨⟨by decide, (h.2.1 (by decide) (by decide)).1⟩, h.2.2⟩

/-- C5: the decide primitive pair.  pop_application reports a missing
pending application as an ordinary none result and otherwise removes
it; mark_application_status writes the decided status with the
optional note, keeping the previous language code when none (or an
empty string) is provided; their composition, the decide flow, removes
the pending application and records approved or denied. -/
theorem decide_application_contract (s : StorageState) (ts : String) (uid : Int)
    (approve : Bool) (note lc : Option String) (status : String)
    (hnd : NodupKeys s.applications) :
    (alGet s.applications uid = none → pop_application s uid = (none, s)) ∧
    (∀ app, alGet s.applications uid = some app →
      pop_application s uid =
        (some app, { s with applications := alPop s.applications uid }) ∧
      alGet (pop_application s uid).2.applications uid = none) ∧
    (alGet (mark_application_status s ts uid status note lc).application_history uid =
      some { status := status, updated_at := ts, note := note,
             language_code :=
               pyOr lc ((alGet s.application_history uid).bind (·.language_code)) }) ∧
    (lc = none →
      pyOr lc ((alGet s.application_history uid).bind (·.language_code)) =
        (alGet s.application_history uid).bind (·.language_code)) ∧
    (alGet s.applications uid = none →
      decide_application s ts uid approve note = (none, s)) ∧
    (∀ app, alGet s.applications uid = some app →
      (decide_application s ts uid approve note).1 = some app ∧
      alGet (decide_application s ts uid approve note).2.applications uid = none ∧
      alGet (decide_application s ts uid approve note).2.application_history uid =
        some { status := if approve then "approved" else "denied",
               updated_at := ts, note := note,
               language_code :=
                 pyOr app.language_code
                   ((alGet s.application_history uid).bind (·.language_code)) }) := by
  refine ⟨?_, ?_, ?_, ?_, ?_, ?_⟩
  · intro h; simp [pop_application, h]
  · intro app h
    refine ⟨by simp [pop_application, h], ?_⟩
    simp [pop_application, h, alGet_alPop_self _ _ hnd]
  · simp [mark_application_status, alGet_alInsert_self]
  · intro h; simp [h, pyOr]
  · intro h; simp [decide_application, pop_application, h]
  · intro app h
    refine ⟨by simp [decide_application, pop_application, h], ?_, ?_⟩
    · simp [decide_application, pop_application, h, mark_application_status,
        alGet_alPop_self _ _ hnd]
    · simp [decide_application, pop_application, h, mark_application_status,
        alGet_alInsert_self]

/-- Witness for C5: in a store holding one pending application for
user 3, deciding user 3 with approval removes it and records the
approved status, and deciding absent user 4 is a plain none result. -/
theorem decide_application_contract_witness :
    (decide_application (add_application StorageState.initial "t0" 3 "U" none
        none (some "fa") []).2 "t1" 4 true none =
      (none, (add_application StorageState.initial "t0" 3 "U" none
        none (some "fa") []).2)) ∧
    (decide_application (add_application StorageState.initial "t0" 3 "U" none
        none (some "fa") []).2 "t1" 3 true (some "ok")).1.isSome = true ∧
    alGet (decide_application (add_application StorageState.initial "t0" 3 "U" none
        none (some "fa") []).2 "t1" 3 true (some "ok")).2.applications 3 = none := by
  have h4 := decide_application_contract
    (add_application StorageState.initial "t0" 3 "U" none none (some "fa") []).2
    "t1" 4 true none none "x" (by decide)
  have h3 := decide_application_contract
    (add_application StorageState.initial "t0" 3 "U" none none (some "fa") []).2
    "t1" 3 true (some "ok") none "x" (by decide)
  refine ⟨h4.2.2.2.2.1 (by decide), ?_, ?_⟩
  · have := (h3.2.2.2.2.2 _ (by decide : alGet (add_application StorageState.initial
      "t0" 3 "U" none none (some "fa") []).2.applications 3 = some
      { user_id := 3, full_name := "U", username := none, answer := none,
        created_at := "t0", language_code := some "fa", responses := [] })).1
    simp [this]
  · exact (h3.2.2.2.2.2 _ (by decide : alGet (add_application StorageState.initial
      "t0" 3 "U" none none (some "fa") []).2.applications 3 = some
      { user_id := 3, full_name := "U", username := none, answer := none,
        created_at := "t0", language_code := some "fa", responses := [] })).2.1

/-- C6: withdraw_application fails with the state untouched when no
pending application exists; otherwise it removes the application,
records a withdrawn history entry keeping the application's language
code, returns true, and a new submit for the same user immediately
afterwards succeeds. -/
theorem withdraw_application_contract (s : StorageState) (ts ts2 : String)
    (uid : Int) (fn : String) (un ans lc : Option String)
    (rs : List ApplicationResponse) (hnd : NodupKeys s.applications) :
    (alGet s.applications uid = none → withdraw_application s ts uid = (false, s)) ∧
    (∀ app, alGet s.applications uid = some app →
      (withdraw_application s ts uid).1 = true ∧
      alGet (withdraw_application s ts uid).2.applications uid = none ∧
      alGet (withdraw_application s ts uid).2.application_history uid =
        some { status := "withdrawn", updated_at := ts, note := none,
               language_code := app.language_code } ∧
      (add_application (withdraw_application s ts uid).2
          ts2 uid fn un ans lc rs).1 = true) := by
  refine ⟨?_, ?_⟩
  · intro h; simp [withdraw_application, h]
  · intro app h
    refine ⟨by simp [withdraw_application, h], ?_, ?_, ?_⟩
    · simp [withdraw_application, h, alGet_alPop_self _ _ hnd]
    · simp [withdraw_application, h, alGet_alInsert_self]
    · simp [add_application, withdraw_application, h, alGet_alInsert_self,
        alGet_alPop_self _ _ hnd]

/-- Witness for C6: submit, withdraw, submit again for user 10
succeeds the second time, matching the concrete spec scenario. -/
theorem withdraw_application_contract_witness :
    ((withdraw_application (add_application StorageState.initial "t0" 10 "User"
        none (some "Answer") none []).2 "t1" 10).1 = true ∧
      alGet (withdraw_application (add_application StorageState.initial "t0" 10 "User"
        none (some "Answer") none []).2 "t1" 10).2.application_history 10 =
        some { status := "withdrawn", updated_at := "t1", note := none,
               language_code := none }) ∧
    (add_application (withdraw_application (add_application StorageState.initial
        "t0" 10 "User" none (some "Answer") none []).2 "t1" 10).2
        "t2" 10 "User" none (some "Answer") none []).1 = true := by
  have h := withdraw_application_contract
    (add_application StorageState.initial "t0" 10 "User" none (some "Answer") none []).2
    "t1" "t2" 10 "User" none (some "Answer") none [] (by decide)
  have hs := h.2 _ (by decide : alGet (add_application StorageState.initial "t0" 10
    "User" none (some "Answer") none []).2.applications 10 = some
    { user_id := 10, full_name := "User", username := none, answer := some "Answer",
      created_at := "t0", language_code := none, responses := [] })
  exact ⟨⟨hs.1, hs.2.2.1⟩, hs.2.2.2⟩

theorem mem_alPop {κ α : Type} [BEq κ]
    (l : List (κ × α)) (k : κ) (p : κ × α) (hp : p ∈ alPop l k) : p ∈ l := by
  induction l with
  | nil => simp [alPop] at hp
  | cons hd tl ih =>
    obtain ⟨k0, v0⟩ := hd
    by_cases hh : (k0 == k) = true
    · simp only [alPop, if_pos hh] at hp
      exact List.mem_cons_of_mem _ hp
    · simp only [alPop, if_neg hh, List.mem_cons] at hp
      rcases hp with h1 | h1
      · exact h1 ▸ List.mem_cons_self _ _
      · exact List.mem_cons_of_mem _ (ih h1)

theorem not_mem_alKeys_of_alGet_eq_none {κ α : Type} [BEq κ] [LawfulBEq κ]
    (l : List (κ × α)) (k : κ) (h : alGet l k = none) : k ∉ alKeys l := by
  induction l with
  | nil => simp [alKeys]
  | cons hd tl ih =>
    obtain ⟨k0, v0⟩ := hd
    by_cases hh : (k0 == k) = true
    · simp [alGet, hh] at h
    · simp only [alGet, hh, Bool.false_eq_true, if_false] at h
      simp only [alKeys, List.map_cons, List.mem_cons, not_or]
      exact ⟨fun he => hh (beq_iff_eq.mpr he.symm), ih h⟩

theorem nodupKeys_alInsert_of_nodup {κ α : Type} [BEq κ] [LawfulBEq κ]
    (l : List (κ × α)) (k : κ) (v : α) (hnd : NodupKeys l) :
    NodupKeys (alInsert l k v) := by
  induction l with
  | nil => simp [alInsert, NodupKeys, alKeys]
  | cons hd tl ih =>
    obtain ⟨k0, v0⟩ := hd
    simp only [NodupKeys, alKeys, List.map_cons, List.nodup_cons] at hnd
    by_cases hh : (k0 == k) = true
    · have hk := eq_of_beq hh
      subst hk
      simp only [alInsert, if_pos hh, NodupKeys, alKeys, List.map_cons, List.nodup_cons]
      exact hnd
    · simp only [alInsert, if_neg hh, NodupKeys, alKeys, List.map_cons, List.nodup_cons]
      refine ⟨?_, ih hnd.2⟩
      intro hmem
      have halt := alKeys_alInsert tl k v
      simp only [alKeys] at halt
      rcases halt with h1 | h1
      · rw [h1] at hmem
        exact hnd.1 hmem
      · rw [h1] at hmem
        rcases List.mem_append.mp hmem with h2 | h2
        · exact hnd.1 h2
        · exact hh (beq_iff_eq.mpr (List.mem_singleton.mp h2))

/-- Decidable form of the C7 invariant: no user id has a pending
application while its history entry says approved. -/
def noPendingApproved (s : StorageState) : Bool :=
  s.applications.all fun p =>
    match alGet s.application_history p.1 with
    | some e => !(e.status == "approved")
    | none => true

/-- Propositional reading of noPendingApproved. -/
theorem noPendingApproved_iff (s : StorageState) :
    noPendingApproved s = true ↔
      ∀ p ∈ s.applications, ∀ e,
        alGet s.application_history p.1 = some e → e.status ≠ "approved" := by
  unfold noPendingApproved
  rw [List.all_eq_true]
  constructor
  · intro h p hp e he hst
    have := h p hp
    rw [he] at this
    simp [hst] at this
  · intro h p hp
    rcases hh : alGet s.application_history p.1 with _ | e
    · simp
    · simp only [Bool.not_eq_eq_eq_not, Bool.not_true, beq_eq_false_iff_ne, ne_eq]
      exact h p hp e hh

/-- Branch analysis of add_application: either a refused submission
with the state unchanged, or a fresh user id with both records
inserted. -/
theorem add_application_cases (s : StorageState) (ts : String) (uid : Int)
    (fn : String) (un ans lc : Option String) (rs : List ApplicationResponse) :
    (add_application s ts uid fn un ans lc rs).2 = s ∨
    (alGet s.applications uid = none ∧
      (add_application s ts uid fn un ans lc rs).2.applications =
        alInsert s.applications uid
          { user_id := uid, full_name := fn, username := un, answer := ans,
            created_at := ts, language_code := lc, responses := rs } ∧
      (add_application s ts uid fn un ans lc rs).2.application_history =
        alInsert s.application_history uid
          { status := "pending", updated_at := ts, note := none,
            language_code := lc }) := by
  rcases hh : alGet s.application_history uid with _ | e
  · rcases hp : alGet s.applications uid with _ | app
    · right
      exact ⟨rfl, by simp [add_application, hh, hp], by simp [add_application, hh, hp]⟩
    · left; simp [add_application, hh, hp]
  · by_cases hst : e.status = "approved"
    · left; simp [add_application, hh, hst]
    · rcases hp : alGet s.applications uid with _ | app
      · right
        exact ⟨rfl, by simp [add_application, hh, hst, hp],
          by simp [add_application, hh, hst, hp]⟩
      · left; simp [add_application, hh, hst, hp]

/-- add_admin never touches applications or history. -/
theorem add_admin_preserves (s : StorageState) (uid : Int)
    (u f : Option String) :
    (add_admin s uid u f).2.applications = s.applications ∧
    (add_admin s uid u f).2.application_history = s.application_history ∧
    (add_admin s uid u f).2.xp = s.xp := by
  unfold add_admin
  dsimp only
  split <;> exact ⟨rfl, rfl, rfl⟩

/-- remove_admin never touches applications or history. -/
theorem remove_admin_preserves (s : StorageState) (uid : Int) :
    (remove_admin s uid).2.applications = s.applications ∧
    (remove_admin s uid).2.application_history = s.application_history ∧
    (remove_admin s uid).2.xp = s.xp := by
  unfold remove_admin
  split <;> exact ⟨rfl, rfl, rfl⟩

/-- Branch analysis of pop_application. -/
theorem pop_application_cases (s : StorageState) (uid : Int) :
    (pop_application s uid).2 = s ∨
    (pop_application s uid).2 = { s with applications := alPop s.applications uid } := by
  unfold pop_application
  rcases alGet s.applications uid <;> simp

/-- Branch analysis of withdraw_application. -/
theorem withdraw_application_cases (s : StorageState) (ts : String) (uid : Int) :
    (withdraw_application s ts uid).2 = s ∨
    (∃ lcApp, (withdraw_application s ts uid).2 =
      { s with applications := alPop s.applications uid,
               application_history := alInsert s.application_history uid
                 { status := "withdrawn", updated_at := ts, note := none,
                   language_code := lcApp } }) := by
  unfold withdraw_application
  rcases alGet s.applications uid with _ | app
  · left; rfl
  · right; exact ⟨app.language_code, rfl⟩

/-- Guard describing how the adapter layer uses the status-write
primitive: an approved status is only recorded for a user whose
pending application was popped first (handlers/dm.py pops before it
prompts for the note and calls mark_application_status). -/
def approvedGuard (s : StorageState) : StoreOp → Prop
  | .opMarkStatus _ uid st _ _ => st = "approved" → alGet s.applications uid = none
  | _ => True

/-- One guarded public operation preserves the no-pending-approved
invariant. -/
theorem noPendingApproved_step (s : StorageState) (op : StoreOp)
    (hg : approvedGuard s op) (hinv : noPendingApproved s = true) :
    noPendingApproved (applyOp s op) = true := by
  rw [noPendingApproved_iff] at hinv ⊢
  cases op with
  | opAddAdmin uid u f =>
    intro p hp e he
    simp only [applyOp] at hp he
    rw [(add_admin_preserves s uid u f).1] at hp
    rw [(add_admin_preserves s uid u f).2.1] at he
    exact hinv p hp e he
  | opRemoveAdmin uid =>
    intro p hp e he
    simp only [applyOp] at hp he
    rw [(remove_admin_preserves s uid).1] at hp
    rw [(remove_admin_preserves s uid).2.1] at he
    exact hinv p hp e he
  | opAddApplication ts uid fn un ans lc rs =>
    intro p hp e he
    simp only [applyOp] at hp he
    rcases add_application_cases s ts uid fn un ans lc rs with h | ⟨hnone, happs, hhist⟩
    · rw [h] at hp he
      exact hinv p hp e he
    · rw [happs] at hp
      rw [hhist] at he
      rcases mem_alInsert _ _ _ _ hp with h1 | ⟨h1, hne⟩ | ⟨h1, heq⟩
      · subst h1
        rw [alGet_alInsert_self] at he
        have h2 := Option.some.inj he
        intro hst
        rw [← h2] at hst
        simp at hst
      · rw [alGet_alInsert_ne _ _ _ _ hne] at he
        exact hinv p h1 e he
      · exact absurd (heq ▸ List.mem_map_of_mem Prod.fst h1)
          (not_mem_alKeys_of_alGet_eq_none _ _ hnone)
  | opPopApplication uid =>
    intro p hp e he
    simp only [applyOp] at hp he
    rcases pop_application_cases s uid with h | h
    · rw [h] at hp he
      exact hinv p hp e he
    · rw [h] at hp he
      exact hinv p (mem_alPop _ _ _ hp) e he
  | opWithdraw ts uid =>
    intro p hp e he
    simp only [applyOp] at hp he
    rcases withdraw_application_cases s ts uid with h | ⟨lcApp, h⟩
    · rw [h] at hp he
      exact hinv p hp e he
    · rw [h] at hp he
      by_cases hk : p.1 = uid
      · rw [hk] at he
        rw [alGet_alInsert_self] at he
        have h2 := Option.some.inj he
        intro hst
        rw [← h2] at hst
        simp at hst
      · rw [alGet_alInsert_ne _ _ _ _ hk] at he
        exact hinv p (mem_alPop _ _ _ hp) e he
  | opMarkStatus ts uid st note lc =>
    intro p hp e he
    simp only [applyOp] at hp he
    simp only [approvedGuard] at hg
    by_cases hk : p.1 = uid
    · rw [hk] at he
      rw [show (mark_application_status s ts uid st note lc).application_history =
        alInsert s.application_history uid
          { status := st, updated_at := ts, note := note,
            language_code :=
              pyOr lc ((alGet s.application_history uid).bind (·.language_code)) }
        from rfl] at he
      rw [alGet_alInsert_self] at he
      have h2 := Option.some.inj he
      intro hst
      rw [← h2] at hst
      have hnone := hg hst
      exact not_mem_alKeys_of_alGet_eq_none _ _ hnone
        (hk ▸ List.mem_map_of_mem Prod.fst hp)
    · rw [show (mark_application_status s ts uid st note lc).application_history =
        alInsert s.application_history uid
          { status := st, updated_at := ts, note := note,
            language_code :=
              pyOr lc ((alGet s.application_history uid).bind (·.language_code)) }
        from rfl] at he
      rw [alGet_alInsert_ne _ _ _ _ hk] at he
      exact hinv p hp e he
  | opAddXp c u a =>
    intro p hp e he
    exact hinv p hp e he
  | opAddCup ts c t d pd =>
    intro p hp e he
    exact hinv p hp e he

/-- State produced by submitting for user 1 and then writing the
approved status through the public primitive without popping. -/
def pendingApprovedState : StorageState :=
  applyOp (applyOp StorageState.initial
    (.opAddApplication "t0" 1 "User" none (some "hi") none []))
    (.opMarkStatus "t1" 1 "approved" none none)

/-- C7 counterexample: the state above is reachable from the empty
store through public operations, yet user 1 simultaneously has a
pending application and an approved history entry, so the claimed
invariant fails as stated. -/
theorem reachable_pending_approved_counterexample :
    Reachable pendingApprovedState ∧
    (alGet pendingApprovedState.applications 1).isSome = true ∧
    alGet pendingApprovedState.application_history 1 =
      some { status := "approved", updated_at := "t1", note := none,
             language_code := none } ∧
    noPendingApproved pendingApprovedState = false :=
  ⟨ReachableFrom.step (ReachableFrom.step ReachableFrom.init trivial) trivial,
    by decide, by decide, by decide⟩

/-- C7 amended: in every state reachable from the empty store whose
approved status writes only ever target a user with no pending
application (exactly how the decide flow uses the primitive, popping
first), no user id has both a pending application and an approved
history entry. -/
theorem no_pending_approved_of_guarded (s : StorageState)
    (h : ReachableFrom approvedGuard s) : noPendingApproved s = true := by
  induction h with
  | init => decide
  | step hs hg ih => exact noPendingApproved_step _ _ hg ih

/-- Witness for the amended C7 theorem on a concrete guarded run:
submit for user 5, pop, then mark approved. -/
theorem no_pending_approved_of_guarded_witness :
    noPendingApproved (applyOp (applyOp (applyOp StorageState.initial
      (.opAddApplication "t0" 5 "U" none none none []))
      (.opPopApplication 5))
      (.opMarkStatus "t1" 5 "approved" none none)) = true :=
  no_pending_approved_of_guarded _
    (ReachableFrom.step (ReachableFrom.step (ReachableFrom.step ReachableFrom.init
      trivial) trivial) (fun _ => by decide))

theorem mem_of_alGet {κ α : Type} [BEq κ] [LawfulBEq κ]
    (l : List (κ × α)) (k : κ) (v : α) (h : alGet l k = some v) : (k, v) ∈ l := by
  induction l with
  | nil => simp [alGet] at h
  | cons hd tl ih =>
    obtain ⟨k0, v0⟩ := hd
    by_cases hh : (k0 == k) = true
    · have hk := eq_of_beq hh
      subst hk
      simp only [alGet, if_pos hh] at h
      have h2 := Option.some.inj h
      subst h2
      exact List.mem_cons_self _ _
    · simp only [alGet, hh, Bool.false_eq_true, if_false] at h
      exact List.mem_cons_of_mem _ (ih h)

/-- Guard restricting add_xp to the non-negative amounts the only
in-repo caller supplies (the configured per-message reward in
handlers/group.py). -/
def nonnegXpGuard (_s : StorageState) : StoreOp → Prop
  | .opAddXp _ _ amount => 0 ≤ amount
  | _ => True

/-- Decidable check that every stored XP score is non-negative. -/
def allXpNonneg (s : StorageState) : Bool :=
  s.xp.all fun chat => chat.2.all fun u => decide (0 ≤ u.2)

theorem allXpNonneg_iff (s : StorageState) :
    allXpNonneg s = true ↔ ∀ chat ∈ s.xp, ∀ p ∈ chat.2, (0:Int) ≤ p.2 := by
  unfold allXpNonneg
  simp [List.all_eq_true]

theorem add_application_xp (s : StorageState) (ts : String) (uid : Int)
    (fn : String) (un ans lc : Option String) (rs : List ApplicationResponse) :
    (add_application s ts uid fn un ans lc rs).2.xp = s.xp := by
  unfold add_application
  dsimp only
  split
  · rfl
  · split <;> rfl

theorem pop_application_xp (s : StorageState) (uid : Int) :
    (pop_application s uid).2.xp = s.xp := by
  unfold pop_application
  rcases alGet s.applications uid <;> rfl

theorem withdraw_application_xp (s : StorageState) (ts : String) (uid : Int) :
    (withdraw_application s ts uid).2.xp = s.xp := by
  unfold withdraw_application
  rcases alGet s.applications uid <;> rfl

/-- Every public operation other than add_xp leaves the XP table
untouched. -/
theorem applyOp_xp_untouched (s : StorageState) (op : StoreOp)
    (h : ∀ c2 u2 a2, op ≠ .opAddXp c2 u2 a2) : (applyOp s op).xp = s.xp := by
  cases op with
  | opAddAdmin uid u f => exact (add_admin_preserves s uid u f).2.2
  | opRemoveAdmin uid => exact (remove_admin_preserves s uid).2.2
  | opAddApplication ts uid fn un ans lc rs => exact add_application_xp s ts uid fn un ans lc rs
  | opPopApplication uid => exact pop_application_xp s uid
  | opWithdraw ts uid => exact withdraw_application_xp s ts uid
  | opMarkStatus ts uid st note lc => rfl
  | opAddXp c2 u2 a2 => exact absurd rfl (h c2 u2 a2)
  | opAddCup ts c t d pd => rfl

/-- One guarded public operation preserves non-negativity of all
scores. -/
theorem allXpNonneg_step (s : StorageState) (op : StoreOp)
    (hg : nonnegXpGuard s op) (hinv : allXpNonneg s = true) :
    allXpNonneg (applyOp s op) = true := by
  rw [allXpNonneg_iff] at hinv ⊢
  cases op with
  | opAddXp c u amount =>
    simp only [nonnegXpGuard] at hg
    intro chat hchat p hp
    simp only [applyOp, add_xp] at hchat
    rcases mem_alInsert _ _ _ _ hchat with h1 | ⟨h1, _⟩ | ⟨h1, _⟩
    · subst h1
      rcases mem_alInsert _ _ _ _ hp with h2 | ⟨h2, _⟩ | ⟨h2, _⟩
      · subst h2
        have hold : (0:Int) ≤ (alGet ((alGet s.xp (toString c)).getD []) (toString u)).getD 0 := by
          rcases hx : alGet s.xp (toString c) with _ | chat0
          · simp [hx, alGet]
          · rcases hu : alGet chat0 (toString u) with _ | v
            · simp [hx, hu]
            · have hv := hinv _ (mem_of_alGet _ _ _ hx) _ (mem_of_alGet _ _ _ hu)
              simpa [hx, hu] using hv
        simpa using add_nonneg hold hg
      all_goals {
        rcases hx : alGet s.xp (toString c) with _ | chat0
        · rw [hx] at h2
          simp [alGet] at h2
        · rw [hx] at h2
          exact hinv _ (mem_of_alGet _ _ _ hx) _ h2 }
    all_goals exact hinv _ h1 _ hp
  | opAddAdmin uid u f =>
    intro chat hchat
    simp only [applyOp] at hchat
    rw [(add_admin_preserves s uid u f).2.2] at hchat
    exact hinv chat hchat
  | opRemoveAdmin uid =>
    intro chat hchat
    simp only [applyOp] at hchat
    rw [(remove_admin_preserves s uid).2.2] at hchat
    exact hinv chat hchat
  | opAddApplication ts uid fn un ans lc rs =>
    intro chat hchat
    simp only [applyOp] at hchat
    rw [add_application_xp s ts uid fn un ans lc rs] at hchat
    exact hinv chat hchat
  | opPopApplication uid =>
    intro chat hchat
    simp only [applyOp] at hchat
    rw [pop_application_xp s uid] at hchat
    exact hinv chat hchat
  | opWithdraw ts uid =>
    intro chat hchat
    simp only [applyOp] at hchat
    rw [withdraw_application_xp s ts uid] at hchat
    exact hinv chat hchat
  | opMarkStatus ts uid st note lc =>
    intro chat hchat
    exact hinv chat hchat
  | opAddCup ts c t d pd =>
    intro chat hchat
    exact hinv chat hchat

/-- C8 counterexample: add_xp accepts a negative amount, which makes
the stored score negative and strictly smaller than before, so the
never-negative and monotone parts of the claim fail on the code as
stated. -/
theorem add_xp_negative_counterexample :
    (add_xp StorageState.initial 100 1 (-5)).1 = -5 ∧
    xpScore (applyOp StorageState.initial (.opAddXp 100 1 (-5))) "100" "1" = -5 ∧
    xpScore (applyOp StorageState.initial (.opAddXp 100 1 (-5))) "100" "1" <
      xpScore StorageState.initial "100" "1" := by
  refine ⟨by decide, by decide, by decide⟩

/-- C8 amended: add_xp always stores and returns the old score plus
the amount, leaves every other score untouched, and no other public
operation changes the XP table; when every supplied amount is
non-negative (as the only caller, the per-message reward, guarantees)
scores never decrease and every reachable score is non-negative. -/
theorem add_xp_amended (s : StorageState) (c u amount : Int) :
    (add_xp s c u amount).1 = xpScore s (toString c) (toString u) + amount ∧
    xpScore (add_xp s c u amount).2 (toString c) (toString u) =
      xpScore s (toString c) (toString u) + amount ∧
    (∀ ck uk, ck ≠ toString c →
      xpScore (add_xp s c u amount).2 ck uk = xpScore s ck uk) ∧
    (∀ uk, uk ≠ toString u →
      xpScore (add_xp s c u amount).2 (toString c) uk = xpScore s (toString c) uk) ∧
    (0 ≤ amount →
      xpScore s (toString c) (toString u) ≤
        xpScore (add_xp s c u amount).2 (toString c) (toString u)) ∧
    (∀ op : StoreOp, (∀ c2 u2 a2, op ≠ .opAddXp c2 u2 a2) →
      (applyOp s op).xp = s.xp) ∧
    (∀ t : StorageState, ReachableFrom nonnegXpGuard t → allXpNonneg t = true) := by
  have hret : (add_xp s c u amount).1 =
      xpScore s (toString c) (toString u) + amount := rfl
  have hstored : xpScore (add_xp s c u amount).2 (toString c) (toString u) =
      xpScore s (toString c) (toString u) + amount := by
    unfold add_xp xpScore
    rw [alGet_alInsert_self]
    simp only [Option.getD_some]
    rw [alGet_alInsert_self]
    simp only [Option.getD_some]
  refine ⟨hret, hstored, ?_, ?_, ?_, applyOp_xp_untouched s, ?_⟩
  · intro ck uk hck
    unfold add_xp xpScore
    rw [alGet_alInsert_ne _ _ _ _ hck]
  · intro uk huk
    unfold add_xp xpScore
    rw [alGet_alInsert_self]
    simp only [Option.getD_some]
    rw [alGet_alInsert_ne _ _ _ _ huk]
  · intro hamt
    rw [hstored]
    linarith
  · intro t ht
    induction ht with
    | init => decide
    | step hs hg ih => exact allXpNonneg_step _ _ hg ih

/-- Witness for the amended C8 theorem at the spec's concrete
scenario: two rewards of 5 for user 1 in chat 100. -/
theorem add_xp_amended_witness :
    (add_xp StorageState.initial 100 1 5).1 = 5 ∧
    (add_xp (add_xp StorageState.initial 100 1 5).2 100 1 5).1 = 10 ∧
    allXpNonneg (applyOp StorageState.initial (.opAddXp 100 1 5)) = true := by
  have h1 := add_xp_amended StorageState.initial 100 1 5
  refine ⟨?_, ?_, ?_⟩
  · rw [h1.1]; decide
  · rw [(add_xp_amended (add_xp StorageState.initial 100 1 5).2 100 1 5).1]
    decide
  · exact h1.2.2.2.2.2.2 _
      (ReachableFrom.step ReachableFrom.init (show (0:Int) ≤ 5 by norm_num))

theorem filter_orderedInsert_pos (v : Int) (x : String × Int) (hx : x.2 = v)
    (l : List (String × Int)) :
    (List.orderedInsert scoreGE x l).filter (fun p => p.2 == v) =
      x :: l.filter (fun p => p.2 == v) := by
  induction l with
  | nil => simp [List.orderedInsert, hx]
  | cons y ys ih =>
    by_cases hle : scoreGE x y
    · rw [List.orderedInsert, if_pos hle]
      simp [hx]
    · rw [List.orderedInsert, if_neg hle]
      have hyv : y.2 ≠ v :=
        fun he => hle (show y.2 ≤ x.2 by rw [he, hx])
      simp only [List.filter_cons]
      rw [if_neg (by simp [hyv]), if_neg (by simp [hyv])]
      exact ih
  
theorem filter_orderedInsert_neg (v : Int) (x : String × Int) (hx : x.2 ≠ v)
    (l : List (String × Int)) :
    (List.orderedInsert scoreGE x l).filter (fun p => p.2 == v) =
      l.filter (fun p => p.2 == v) := by
  induction l with
  | nil => simp [List.orderedInsert, hx]
  | cons y ys ih =>
    by_cases hle : scoreGE x y
    · rw [List.orderedInsert, if_pos hle]
      simp only [List.filter_cons]
      rw [if_neg (by simp [hx])]
    · rw [List.orderedInsert, if_neg hle]
      simp only [List.filter_cons]
      by_cases hy : (y.2 == v) = true
      · rw [if_pos (by simp [hy]), if_pos (by simp [hy]), ih]
      · rw [if_neg (by simp_all), if_neg (by simp_all)]
        exact ih

/-- Stability of the leaderboard sort: within one score value the
sorted list keeps exactly the original order of entries. -/
theorem filter_insertionSort (v : Int) (l : List (String × Int)) :
    (List.insertionSort scoreGE l).filter (fun p => p.2 == v) =
      l.filter (fun p => p.2 == v) := by
  induction l with
  | nil => rfl
  | cons x xs ih =>
    rw [List.insertionSort]
    by_cases hx : x.2 = v
    · rw [filter_orderedInsert_pos v x hx, ih]
      simp [List.filter_cons, hx]
    · rw [filter_orderedInsert_neg v x hx, ih]
      simp [List.filter_cons, hx]

theorem pySliceTo_sublist {α : Type} (l : List α) (n : Int) :
    (pySliceTo l n).Sublist l := by
  unfold pySliceTo
  split <;> exact List.take_sublist _ _

/-- C9: the leaderboard returns at most limit entries, sorted by score
descending with ties kept in original insertion order (the sort is
stable), and the spec's concrete two-reward scenario produces
[("1", 10)] (user ids appear in the string form the store keys them
by). -/
theorem get_xp_leaderboard_contract (s : StorageState) (chat_id limit : Int) :
    (0 ≤ limit → ((get_xp_leaderboard s chat_id limit).length : Int) ≤ limit) ∧
    List.Sorted scoreGE (get_xp_leaderboard s chat_id limit) ∧
    (∀ v : Int,
      (List.insertionSort scoreGE ((alGet s.xp (toString chat_id)).getD [])).filter
          (fun p => p.2 == v) =
        ((alGet s.xp (toString chat_id)).getD []).filter (fun p => p.2 == v)) ∧
    get_xp_leaderboard (add_xp (add_xp StorageState.initial 100 1 5).2 100 1 5).2
      100 5 = [("1", 10)] := by
  refine ⟨?_, ?_, fun v => filter_insertionSort v _, by decide⟩
  · intro hlim
    unfold get_xp_leaderboard pySliceTo
    rw [if_pos hlim]
    calc ((List.take limit.toNat _).length : Int)
        ≤ (limit.toNat : Int) := by exact_mod_cast List.length_take_le _ _
      _ = limit := Int.toNat_of_nonneg hlim
  · exact List.Pairwise.sublist (pySliceTo_sublist _ _)
      (List.sorted_insertionSort scoreGE _)

/-- Witness for C9 in the concrete scenario store. -/
theorem get_xp_leaderboard_contract_witness :
    ((get_xp_leaderboard (add_xp (add_xp StorageState.initial 100 1 5).2
        100 1 5).2 100 5).length : Int) ≤ 5 ∧
    get_xp_leaderboard (add_xp (add_xp StorageState.initial 100 1 5).2 100 1 5).2
      100 5 = [("1", 10)] := by
  have h := get_xp_leaderboard_contract
    (add_xp (add_xp StorageState.initial 100 1 5).2 100 1 5).2 100 5
  exact ⟨h.1 (by norm_num), h.2.2.2⟩

/-- Contents of the two paths _write_snapshot touches: the real file
and its temporary sibling; none means the path does not exist. -/
structure SnapshotFiles where
  target : Option (List Nat)
  tmp : Option (List Nat)
deriving DecidableEq, Repr

/-- Failure injected into _write_snapshot at a point after the
temporary file has been created: the write call raises after putting
some partial byte string there, or the atomic replace raises. -/
inductive SnapshotFailure where
  | duringTmpWrite (written : List Nat)
  | duringReplace
deriving DecidableEq, Repr

/-- Opening the temporary path for writing creates or truncates it;
the content is whatever the write call managed to flush. -/
def openTmpWrite (fs : SnapshotFiles) (content : List Nat) : SnapshotFiles :=
  { fs with tmp := some content }

/-- Model of os.replace: atomically moves the temporary file over the
target, failing (none) when the source is missing. -/
def replaceTmp (fs : SnapshotFiles) : Option SnapshotFiles :=
  match fs.tmp with
  | some content => some { target := some content, tmp := none }
  | none => none

/-- The unlink in the except block, FileNotFoundError suppressed. -/
def unlinkTmp (fs : SnapshotFiles) : SnapshotFiles := { fs with tmp := none }

/-- Storage._write_snapshot over the two paths: write the encrypted
payload to the temporary sibling, then atomically replace the target.
When a failure is injected inside the try block, the except block
unlinks the temporary file and re-raises; the error value carries the
file system as the exception leaves it. -/
def write_snapshot (fs : SnapshotFiles) (encrypted : List Nat)
    (failure : Option SnapshotFailure) : Except SnapshotFiles SnapshotFiles :=
  let attempt : Except SnapshotFiles SnapshotFiles :=
    match failure with
    | some (.duringTmpWrite written) => .error (openTmpWrite fs written)
    | some .duringReplace => .error (openTmpWrite fs encrypted)
    | none =>
      match replaceTmp (openTmpWrite fs encrypted) with
      | some fs2 => .ok fs2
      | none => .error (openTmpWrite fs encrypted)
  match attempt with
  | .ok fs2 => .ok fs2
  | .error fsE => .error (unlinkTmp fsE)

/-- C1: whenever a step after the creation of the temporary file
fails, _write_snapshot propagates the failure with the temporary file
removed and the previously persisted target byte-for-byte unchanged;
on success the new snapshot fully and atomically replaces the target
and no temporary file is left behind. -/
theorem write_snapshot_crash_safe (fs : SnapshotFiles) (encrypted : List Nat)
    (failure : Option SnapshotFailure) :
    (∀ f, failure = some f →
      ∃ fsE, write_snapshot fs encrypted failure = .error fsE ∧
        fsE.target = fs.target ∧ fsE.tmp = none) ∧
    (failure = none →
      write_snapshot fs encrypted failure =
        .ok { target := some encrypted, tmp := none }) := by
  constructor
  · intro f hf
    subst hf
    cases f with
    | duringTmpWrite written => exact ⟨_, rfl, rfl, rfl⟩
    | duringReplace => exact ⟨_, rfl, rfl, rfl⟩
  · intro h
    subst h
    rfl

/-- Witness for C1: a failure injected during the replace step leaves
the previously persisted bytes [1, 2] untouched and no temp file,
while the failure-free run replaces them with [3, 4]. -/
theorem write_snapshot_crash_safe_witness :
    write_snapshot { target := some [1, 2], tmp := none } [3, 4]
        (some .duringReplace) =
      .error { target := some [1, 2], tmp := none } ∧
    write_snapshot { target := some [1, 2], tmp := none } [3, 4] none =
      .ok { target := some [3, 4], tmp := none } := by
  have h := write_snapshot_crash_safe
    { target := some [1, 2], tmp := none } [3, 4] (some .duringReplace)
  obtain ⟨fsE, he, ht, hm⟩ := h.1 .duringReplace rfl
  refine ⟨?_, (write_snapshot_crash_safe
    { target := some [1, 2], tmp := none } [3, 4] none).2 rfl⟩
  rw [he]
  have : fsE = { target := some [1, 2], tmp := none } := by
    cases fsE
    simp_all
  rw [this]

/-- JSON-like values of the decrypted snapshot document; the store
only ever writes strings, integers, nulls, arrays and objects. -/
inductive JVal where
  | null
  | str (s : String)
  | int (n : Int)
  | arr (items : List JVal)
  | obj (fields : List (String × JVal))

/-- Dict lookup inside a decoded JSON object. -/
def jLookup (fields : List (String × JVal)) (key : String) : Option JVal :=
  match fields with
  | [] => none
  | (k, v) :: rest => if k == key then some v else jLookup rest key

/-- Python dict.get(key, default). -/
def jGetD (fields : List (String × JVal)) (key : String) (d : JVal) : JVal :=
  (jLookup fields key).getD d

/-- An optional string serializes as null or the string itself. -/
def jOfOptStr : Option String → JVal
  | none => .null
  | some s => .str s

/-- vars(response) inside StorageState.to_dict. -/
def respToJ (r : ApplicationResponse) : JVal :=
  .obj [("question_id", .str r.question_id), ("question", .str r.question),
        ("answer", .str r.answer)]

/-- vars(application) with the responses list serialized, field order
as declared on the dataclass. -/
def appToJ (a : Application) : JVal :=
  .obj [("user_id", .int a.user_id), ("full_name", .str a.full_name),
        ("username", jOfOptStr a.username), ("answer", jOfOptStr a.answer),
        ("created_at", .str a.created_at),
        ("language_code", jOfOptStr a.language_code),
        ("responses", .arr (a.responses.map respToJ))]

/-- vars(history entry). -/
def histToJ (h : ApplicationHistoryEntry) : JVal :=
  .obj [("status", .str h.status), ("updated_at", .str h.updated_at),
        ("note", jOfOptStr h.note), ("language_code", jOfOptStr h.language_code)]

/-- The profile comprehension in to_dict keeps only the values that
are not None; the store only ever writes these two keys, in this
insertion order. -/
def profileToJ (p : AdminProfile) : JVal :=
  .obj ((match p.username with
         | some u => [("username", JVal.str u)]
         | none => []) ++
        (match p.full_name with
         | some f => [("full_name", JVal.str f)]
         | none => []))

/-- One serialized cup entry, field order as add_cup builds the dict. -/
def cupToJ (c : Cup) : JVal :=
  .obj [("title", .str c.title), ("description", .str c.description),
        ("podium", .arr (c.podium.map JVal.str)),
        ("created_at", .str c.created_at)]

/-- StorageState.to_dict: the top-level document with the six fields;
integer dict keys are rendered by the builtin str, passed as keyEnc. -/
def to_dict (keyEnc : Int → String) (s : StorageState) : JVal :=
  .obj [
    ("admins", .arr (s.admins.map JVal.int)),
    ("admin_profiles",
      .obj (s.admin_profiles.map fun p => (keyEnc p.1, profileToJ p.2))),
    ("applications",
      .obj (s.applications.map fun p => (keyEnc p.1, appToJ p.2))),
    ("application_history",
      .obj (s.application_history.map fun p => (keyEnc p.1, histToJ p.2))),
    ("xp", .obj (s.xp.map fun p =>
      (p.1, JVal.obj (p.2.map fun q => (q.1, JVal.int q.2))))),
    ("cups", .obj (s.cups.map fun p => (p.1, JVal.arr (p.2.map cupToJ))))]

/-- Model of normalize_timestamp: a falsy value comes back as the
empty string; otherwise the source tries datetime parsing, which
lives outside the repository and is supplied as norm. -/
def normEff (norm : String → String) (v : String) : String :=
  if v = "" then "" else norm v

/-- A string JSON value. -/
def jStr? : JVal → Option String
  | .str s => some s
  | _ => none

/-- An integer JSON value. -/
def jInt? : JVal → Option Int
  | .int n => some n
  | _ => none

/-- Python value.get(key) read as an optional string: absent and null
both read as None.  A value of a type the store never writes there is
an embedding error. -/
def jGetOptStr (fields : List (String × JVal)) (key : String) :
    Option (Option String) :=
  match jLookup fields key with
  | none => some none
  | some .null => some none
  | some (.str s) => some (some s)
  | some _ => none

/-- Python value.get(key, default) for a string field. -/
def jGetStrD (fields : List (String × JVal)) (key : String) (d : String) :
    Option String :=
  match jLookup fields key with
  | none => some d
  | some (.str s) => some s
  | some _ => none

/-- One entry of the responses list in from_dict: an entry missing one
of the three keys is skipped (the subset check in the source); a
complete entry must consist of exactly the three string fields, since
anything else would break the keyword construction. -/
def respOfJ : JVal → Option (Option ApplicationResponse)
  | .obj fields =>
    if ((jLookup fields "question_id").isSome &&
        (jLookup fields "question").isSome &&
        (jLookup fields "answer").isSome) then
      match fields with
      | [("question_id", .str qid), ("question", .str q), ("answer", .str a)] =>
        some (some { question_id := qid, question := q, answer := a })
      | _ => none
    else some none
  | _ => none

/-- The filtered responses comprehension: parse each entry, dropping
the skipped ones. -/
def respsOfJ : List JVal → Option (List ApplicationResponse)
  | [] => some []
  | j :: rest => do
    let r? ← respOfJ j
    let rs ← respsOfJ rest
    match r? with
    | some r => some (r :: rs)
    | none => some rs

/-- One application in from_dict; a missing user_id raises in the
source and is none here. -/
def appOfJ (norm : String → String) : JVal → Option Application
  | .obj fields => do
    let uidJ ← jLookup fields "user_id"
    let uid ← jInt? uidJ
    let fullName ← jGetStrD fields "full_name" ""
    let username ← jGetOptStr fields "username"
    let answer ← jGetOptStr fields "answer"
    let created ← jGetStrD fields "created_at" ""
    let lang ← jGetOptStr fields "language_code"
    let respsJ ← match jGetD fields "responses" (.arr []) with
      | .arr items => some items
      | _ => none
    let resps ← respsOfJ respsJ
    some { user_id := uid, full_name := fullName, username := username,
           answer := answer, created_at := normEff norm created,
           language_code := lang, responses := resps }
  | _ => none

/-- One history entry in from_dict. -/
def histOfJ (norm : String → String) : JVal → Option ApplicationHistoryEntry
  | .obj fields => do
    let status ← jGetStrD fields "status" ""
    let updated ← jGetStrD fields "updated_at" ""
    let note ← jGetOptStr fields "note"
    let lang ← jGetOptStr fields "language_code"
    some { status := status, updated_at := normEff norm updated,
           note := note, language_code := lang }
  | _ => none

/-- One admin profile in from_dict: the comprehension keeps only
non-empty string values, and a null profile reads as the empty dict;
the embedding tracks the two keys the store ever writes. -/
def profileOfJ : JVal → Option AdminProfile
  | .null => some AdminProfile.empty
  | .obj fields =>
    let pick : String → Option String := fun key =>
      match jLookup fields key with
      | some (.str s) => if s = "" then none else some s
      | _ => none
    some { username := pick "username", full_name := pick "full_name" }
  | _ => none

/-- A list of strings (a cup podium). -/
def strListOfJ : List JVal → Option (List String)
  | [] => some []
  | .str s :: rest => (strListOfJ rest).map (s :: ·)
  | _ => none

/-- One cup entry in from_dict: the source spreads the stored dict and
normalizes created_at; the embedding's Cup record tracks the four
fields add_cup writes. -/
def cupOfJ (norm : String → String) : JVal → Option Cup
  | .obj fields => do
    let title ← (jLookup fields "title").bind jStr?
    let desc ← (jLookup fields "description").bind jStr?
    let podium ← match jLookup fields "podium" with
      | some (.arr items) => strListOfJ items
      | _ => none
    let created ← jGetStrD fields "created_at" ""
    some { title := title, description := desc, podium := podium,
           created_at := normEff norm created }
  | _ => none

/-- Parse each element of a JSON array. -/
def jListMapM {α : Type} (f : JVal → Option α) : List JVal → Option (List α)
  | [] => some []
  | j :: rest => do
    let a ← f j
    let restP ← jListMapM f rest
    some (a :: restP)

/-- The admins list. -/
def intListOfJ : JVal → Option (List Int)
  | .arr items => jListMapM jInt? items
  | _ => none

/-- An integer-keyed dict: keys come back through the builtin int,
passed as keyDec. -/
def entriesOfJ {α : Type} (keyDec : String → Option Int)
    (valOfJ : JVal → Option α) : List (String × JVal) → Option (List (Int × α))
  | [] => some []
  | (k, v) :: rest => do
    let ki ← keyDec k
    let a ← valOfJ v
    let restP ← entriesOfJ keyDec valOfJ rest
    some ((ki, a) :: restP)

/-- A string-keyed dict. -/
def strEntriesOfJ {α : Type} (valOfJ : JVal → Option α) :
    List (String × JVal) → Option (List (String × α))
  | [] => some []
  | (k, v) :: rest => do
    let a ← valOfJ v
    let restP ← strEntriesOfJ valOfJ rest
    some ((k, a) :: restP)

/-- One per-chat XP table. -/
def xpChatOfJ : JVal → Option (List (String × Int))
  | .obj fields => strEntriesOfJ jInt? fields
  | _ => none

/-- One per-chat cup list. -/
def cupListOfJ (norm : String → String) : JVal → Option (List Cup)
  | .arr items => jListMapM (cupOfJ norm) items
  | _ => none

/-- StorageState.from_dict: rebuilds the state from the decoded
payload, converting string keys back with keyDec, normalizing every
timestamp, skipping malformed response entries and keeping only
non-empty string profile values.  The embedding returns none where the
dynamically typed source would raise. -/
def from_dict (keyDec : String → Option Int) (norm : String → String) :
    JVal → Option StorageState
  | .obj fields => do
    let appsF ← match jGetD fields "applications" (.obj []) with
      | .obj f => some f
      | _ => none
    let apps ← entriesOfJ keyDec (appOfJ norm) appsF
    let histF ← match jGetD fields "application_history" (.obj []) with
      | .obj f => some f
      | _ => none
    let hist ← entriesOfJ keyDec (histOfJ norm) histF
    let admins ← intListOfJ (jGetD fields "admins" (.arr []))
    let profF ← match jGetD fields "admin_profiles" (.obj []) with
      | .obj f => some f
      | _ => none
    let profiles ← entriesOfJ keyDec profileOfJ profF
    let xpF ← match jGetD fields "xp" (.obj []) with
      | .obj f => some f
      | _ => none
    let xp ← strEntriesOfJ xpChatOfJ xpF
    let cupsF ← match jGetD fields "cups" (.obj []) with
      | .obj f => some f
      | _ => none
    let cups ← strEntriesOfJ (cupListOfJ norm) cupsF
    some { admins := admins, admin_profiles := profiles, applications := apps,
           application_history := hist, xp := xp, cups := cups }
  | _ => none

/-- Storage.save up to the snapshot write: serialize the whole state
(json.dumps supplied as dumps) and encrypt it. -/
def saveBytes (keyEnc : Int → String) (dumps : JVal → List Nat)
    (encrypt : List Nat → List Nat) (s : StorageState) : List Nat :=
  encrypt (dumps (to_dict keyEnc s))

/-- Storage.load: a missing path or an empty file keeps the current
default state installed; failed decryption is a fatal error that
installs nothing; otherwise the payload is decoded and parsed. -/
def loadState (keyDec : String → Option Int) (norm : String → String)
    (decrypt : List Nat → Option (List Nat)) (loads : List Nat → Option JVal)
    (pathExists : Bool) (contents : List Nat) (current : StorageState) :
    Except String StorageState :=
  if !pathExists then .ok current
  else if contents = [] then .ok current
  else
    match decrypt contents with
    | none => .error "Failed to decrypt storage file. Check the secret key."
    | some plain =>
      match loads plain with
      | none => .error "invalid JSON payload"
      | some payload =>
        match from_dict keyDec norm payload with
        | none => .error "malformed storage payload"
        | some st => .ok st

theorem respOfJ_respToJ (r : ApplicationResponse) :
    respOfJ (respToJ r) = some (some r) := rfl

theorem respsOfJ_roundtrip (rs : List ApplicationResponse) :
    respsOfJ (rs.map respToJ) = some rs := by
  induction rs with
  | nil => rfl
  | cons r rest ih =>
    simp only [List.map_cons, respsOfJ, respOfJ_respToJ, ih]
    rfl

theorem appOfJ_appToJ (norm : String → String) (a : Application)
    (hts : normEff norm a.created_at = a.created_at) :
    appOfJ norm (appToJ a) = some a := by
  obtain ⟨uid, fn, un, ans, created, lang, rs⟩ := a
  simp only at hts
  cases un <;> cases ans <;> cases lang <;>
    simp [appOfJ, appToJ, jGetOptStr, jGetStrD, jGetD, jLookup, jInt?, jOfOptStr,
      respsOfJ_roundtrip, hts]

theorem histOfJ_histToJ (norm : String → String) (h : ApplicationHistoryEntry)
    (hts : normEff norm h.updated_at = h.updated_at) :
    histOfJ norm (histToJ h) = some h := by
  obtain ⟨st, upd, note, lang⟩ := h
  simp only at hts
  cases note <;> cases lang <;>
    simp [histOfJ, histToJ, jGetOptStr, jGetStrD, jLookup, jOfOptStr, hts]

/-- Profiles the store can actually hold: a field is never the empty
string (add_admin only merges truthy values, from_dict only keeps
non-empty strings). -/
def WfProfile (p : AdminProfile) : Prop :=
  p.username ≠ some "" ∧ p.full_name ≠ some ""

theorem profileOfJ_profileToJ (p : AdminProfile) (hw : WfProfile p) :
    profileOfJ (profileToJ p) = some p := by
  obtain ⟨u, f⟩ := p
  obtain ⟨hu, hf⟩ := hw
  simp only at hu hf
  cases u with
  | none =>
    cases f with
    | none => rfl
    | some f0 =>
      have hf0 : f0 ≠ "" := fun he => hf (by rw [he])
      simp [profileOfJ, profileToJ, jLookup, hf0]
  | some u0 =>
    have hu0 : u0 ≠ "" := fun he => hu (by rw [he])
    cases f with
    | none => simp [profileOfJ, profileToJ, jLookup, hu0]
    | some f0 =>
      have hf0 : f0 ≠ "" := fun he => hf (by rw [he])
      simp [profileOfJ, profileToJ, jLookup, hu0, hf0]

theorem strListOfJ_roundtrip (l : List String) :
    strListOfJ (l.map JVal.str) = some l := by
  induction l with
  | nil => rfl
  | cons s rest ih => simp [strListOfJ, ih]

theorem cupOfJ_cupToJ (norm : String → String) (c : Cup)
    (hts : normEff norm c.created_at = c.created_at) :
    cupOfJ norm (cupToJ c) = some c := by
  obtain ⟨t, d, pod, created⟩ := c
  simp only at hts
  simp [cupOfJ, cupToJ, jLookup, jStr?, jGetStrD, strListOfJ_roundtrip, hts]

theorem cupListOfJ_roundtrip (norm : String → String) (cs : List Cup)
    (hts : ∀ c ∈ cs, normEff norm c.created_at = c.created_at) :
    cupListOfJ norm (.arr (cs.map cupToJ)) = some cs := by
  induction cs with
  | nil => rfl
  | cons c rest ih =>
    simp only [cupListOfJ, List.map_cons, jListMapM,
      cupOfJ_cupToJ norm c (hts c (List.mem_cons_self _ _))]
    have ih2 := ih fun c2 hc2 => hts c2 (List.mem_cons_of_mem _ hc2)
    simp only [cupListOfJ] at ih2
    simp [ih2]

theorem intListOfJ_roundtrip (l : List Int) :
    intListOfJ (.arr (l.map JVal.int)) = some l := by
  induction l with
  | nil => rfl
  | cons n rest ih =>
    simp only [intListOfJ, List.map_cons, jListMapM, jInt?]
    have ih2 := ih
    simp only [intListOfJ] at ih2
    simp [ih2]

theorem entriesOfJ_roundtrip {α : Type} (keyDec : String → Option Int)
    (valOfJ : JVal → Option α) (enc : Int → String) (toJ : α → JVal)
    (l : List (Int × α))
    (hk : ∀ p ∈ l, keyDec (enc p.1) = some p.1)
    (hv : ∀ p ∈ l, valOfJ (toJ p.2) = some p.2) :
    entriesOfJ keyDec valOfJ (l.map fun p => (enc p.1, toJ p.2)) = some l := by
  induction l with
  | nil => rfl
  | cons p rest ih =>
    simp only [List.map_cons, entriesOfJ,
      hk p (List.mem_cons_self _ _), hv p (List.mem_cons_self _ _)]
    have ih2 := ih (fun q hq => hk q (List.mem_cons_of_mem _ hq))
      (fun q hq => hv q (List.mem_cons_of_mem _ hq))
    simp [ih2]

theorem strEntriesOfJ_roundtrip {α : Type} (valOfJ : JVal → Option α)
    (toJ : α → JVal) (l : List (String × α))
    (hv : ∀ p ∈ l, valOfJ (toJ p.2) = some p.2) :
    strEntriesOfJ valOfJ (l.map fun p => (p.1, toJ p.2)) = some l := by
  induction l with
  | nil => rfl
  | cons p rest ih =>
    simp only [List.map_cons, strEntriesOfJ, hv p (List.mem_cons_self _ _)]
    have ih2 := ih fun q hq => hv q (List.mem_cons_of_mem _ hq)
    simp [ih2]

theorem xpChatOfJ_roundtrip (chat : List (String × Int)) :
    xpChatOfJ (.obj (chat.map fun q => (q.1, JVal.int q.2))) = some chat := by
  simp only [xpChatOfJ]
  exact strEntriesOfJ_roundtrip jInt? JVal.int chat fun p _ => rfl

/-- States the store can reach: every timestamp is a fixed point of
the normalizer (format_timestamp output never parses as ISO, and
already-normalized values normalize to themselves), profile fields are
never the empty string, and the key codec inverts the key rendering on
every key actually present. -/
def WfState (keyEnc : Int → String) (keyDec : String → Option Int)
    (norm : String → String) (s : StorageState) : Prop :=
  (∀ p ∈ s.admin_profiles, keyDec (keyEnc p.1) = some p.1 ∧ WfProfile p.2) ∧
  (∀ p ∈ s.applications, keyDec (keyEnc p.1) = some p.1 ∧
    normEff norm p.2.created_at = p.2.created_at) ∧
  (∀ p ∈ s.application_history, keyDec (keyEnc p.1) = some p.1 ∧
    normEff norm p.2.updated_at = p.2.updated_at) ∧
  (∀ p ∈ s.cups, ∀ c ∈ p.2, normEff norm c.created_at = c.created_at)

/-- Deserialization inverts serialization on well-formed states. -/
theorem from_dict_to_dict (keyEnc : Int → String) (keyDec : String → Option Int)
    (norm : String → String) (s : StorageState)
    (hwf : WfState keyEnc keyDec norm s) :
    from_dict keyDec norm (to_dict keyEnc s) = some s := by
  obtain ⟨hprof, happ, hhist, hcups⟩ := hwf
  have h1 : entriesOfJ keyDec (appOfJ norm)
      (s.applications.map fun p => (keyEnc p.1, appToJ p.2)) =
      some s.applications :=
    entriesOfJ_roundtrip _ _ _ _ _ (fun p hp => (happ p hp).1)
      (fun p hp => appOfJ_appToJ norm p.2 (happ p hp).2)
  have h2 : entriesOfJ keyDec (histOfJ norm)
      (s.application_history.map fun p => (keyEnc p.1, histToJ p.2)) =
      some s.application_history :=
    entriesOfJ_roundtrip _ _ _ _ _ (fun p hp => (hhist p hp).1)
      (fun p hp => histOfJ_histToJ norm p.2 (hhist p hp).2)
  have h3 : intListOfJ (.arr (s.admins.map JVal.int)) = some s.admins :=
    intListOfJ_roundtrip s.admins
  have h4 : entriesOfJ keyDec profileOfJ
      (s.admin_profiles.map fun p => (keyEnc p.1, profileToJ p.2)) =
      some s.admin_profiles :=
    entriesOfJ_roundtrip _ _ _ _ _ (fun p hp => (hprof p hp).1)
      (fun p hp => profileOfJ_profileToJ p.2 (hprof p hp).2)
  have h5 : strEntriesOfJ xpChatOfJ
      (s.xp.map fun p => (p.1, JVal.obj (p.2.map fun q => (q.1, JVal.int q.2)))) =
      some s.xp := by
    have := strEntriesOfJ_roundtrip xpChatOfJ
      (fun chat => JVal.obj (chat.map fun q => (q.1, JVal.int q.2))) s.xp
      (fun p _ => xpChatOfJ_roundtrip p.2)
    simpa using this
  have h6 : strEntriesOfJ (cupListOfJ norm)
      (s.cups.map fun p => (p.1, JVal.arr (p.2.map cupToJ))) = some s.cups := by
    have := strEntriesOfJ_roundtrip (cupListOfJ norm)
      (fun cs => JVal.arr (cs.map cupToJ)) s.cups
      (fun p hp => cupListOfJ_roundtrip norm p.2 (hcups p hp))
    simpa using this
  simp [from_dict, to_dict, jGetD, jLookup, h1, h2, h3, h4, h5, h6]

/-- C4: loadState keeps the default state installed when the path does
not exist or the file is empty (neither is an error), and a decrypt
failure yields the fatal error without installing any state. -/
theorem load_contract (keyDec : String → Option Int) (norm : String → String)
    (decrypt : List Nat → Option (List Nat)) (loads : List Nat → Option JVal)
    (contents : List Nat) (current : StorageState) :
    (loadState keyDec norm decrypt loads false contents current = .ok current) ∧
    (loadState keyDec norm decrypt loads true [] current = .ok current) ∧
    (contents ≠ [] → decrypt contents = none →
      loadState keyDec norm decrypt loads true contents current =
        .error "Failed to decrypt storage file. Check the secret key.") := by
  refine ⟨rfl, rfl, ?_⟩
  intro hne hdec
  simp [loadState, hne, hdec]

/-- Witness for C4 on concrete inputs: a decryptor that rejects the
one-byte file [0]. -/
theorem load_contract_witness :
    loadState (fun _ => none) id (fun _ => none) (fun _ => none)
        true [0] StorageState.initial =
      .error "Failed to decrypt storage file. Check the secret key." ∧
    loadState (fun _ => none) id (fun _ => none) (fun _ => none)
        false [0] StorageState.initial = .ok StorageState.initial :=
  ⟨(load_contract (fun _ => none) id (fun _ => none) (fun _ => none)
      [0] StorageState.initial).2.2 (by simp) rfl,
    (load_contract (fun _ => none) id (fun _ => none) (fun _ => none)
      [0] StorageState.initial).1⟩

/-- C3: for a well-formed (reachable) state, save followed by load in
a fresh instance reproduces the identical in-memory snapshot field for
field, given the documented round-trip behaviour of the external
pieces: json.loads inverts json.dumps, decrypt inverts encrypt, the
ciphertext is never empty, and int inverts str on dict keys. -/
theorem save_load_roundtrip (keyEnc : Int → String) (keyDec : String → Option Int)
    (norm : String → String) (dumps : JVal → List Nat)
    (loads : List Nat → Option JVal) (encrypt : List Nat → List Nat)
    (decrypt : List Nat → Option (List Nat)) (s : StorageState)
    (hwf : WfState keyEnc keyDec norm s)
    (hjson : loads (dumps (to_dict keyEnc s)) = some (to_dict keyEnc s))
    (hcrypt : decrypt (encrypt (dumps (to_dict keyEnc s))) =
      some (dumps (to_dict keyEnc s)))
    (hne : saveBytes keyEnc dumps encrypt s ≠ []) :
    loadState keyDec norm decrypt loads true (saveBytes keyEnc dumps encrypt s)
      StorageState.initial = .ok s := by
  unfold loadState saveBytes
  rw [if_neg (by simp)]
  rw [if_neg (by simpa [saveBytes] using hne)]
  rw [show decrypt (encrypt (dumps (to_dict keyEnc s))) =
    some (dumps (to_dict keyEnc s)) from hcrypt]
  simp only [hjson, from_dict_to_dict keyEnc keyDec norm s hwf]

/-- A pending application used by the concrete round-trip witness. -/
def sampleApp : Application :=
  { user_id := 3, full_name := "U", username := none, answer := some "hi",
    created_at := "t0", language_code := some "fa",
    responses := [{ question_id := "q1", question := "Q", answer := "A" }] }

/-- Its parallel history entry. -/
def sampleHist : ApplicationHistoryEntry :=
  { status := "pending", updated_at := "t0", note := none,
    language_code := some "fa" }

/-- A trophy record for the witness. -/
def sampleCup : Cup :=
  { title := "Cup", description := "Desc", podium := ["A", "B"],
    created_at := "t1" }

/-- A small state exercising every section of the snapshot. -/
def sampleState : StorageState :=
  { admins := [1],
    admin_profiles := [(1, { username := some "alice", full_name := none })],
    applications := [(3, sampleApp)],
    application_history := [(3, sampleHist)],
    xp := [("100", [("1", 10)])],
    cups := [("100", [sampleCup])] }

instance (p : AdminProfile) : Decidable (WfProfile p) := by
  unfold WfProfile
  infer_instance

instance (keyEnc : Int → String) (keyDec : String → Option Int)
    (norm : String → String) (s : StorageState) :
    Decidable (WfState keyEnc keyDec norm s) := by
  unfold WfState
  infer_instance

/-- Witness for C3: the round trip reproduces sampleState exactly,
with str and int as the real key codec, identity encryption, and a
decoder that returns the serialized document. -/
theorem save_load_roundtrip_witness :
    loadState (fun k => if k = "1" then some 1 else if k = "3" then some 3 else none)
      id some (fun _ => some (to_dict toString sampleState))
      true (saveBytes toString (fun _ => [1]) id sampleState)
      StorageState.initial = .ok sampleState :=
  save_load_roundtrip toString
    (fun k => if k = "1" then some 1 else if k = "3" then some 3 else none)
    id (fun _ => [1])
    (fun _ => some (to_dict toString sampleState)) id some sampleState
    (by decide) rfl rfl (by decide)

/-- Atomic steps of one mutating store call.  The source orders them:
the in-memory mutation inside the async-with lock block, then save(),
which re-acquires the lock only around serialization (_snapshot) and
runs the file write (_write_snapshot) with no lock held, because save
is awaited after the async-with block has exited. -/
inductive LockAction where
  | acquire
  | release
  | mutate
  | serialize
  | persist
deriving DecidableEq, Repr

/-- The action sequence of one mutating operation such as add_admin or
add_xp, as the source structures it. -/
def mutOpProgram : List LockAction :=
  [.acquire, .mutate, .release, .acquire, .serialize, .release, .persist]

/-- One scheduler step of two concurrent mutating calls under the
single asyncio lock: the chosen task performs its next action when the
lock discipline allows it. -/
def stepAction (lock : Option Bool) (p0 p1 : List LockAction)
    (tid : Bool) (a : LockAction) :
    Option (Option Bool × List LockAction × List LockAction) :=
  match (if tid then p1 else p0) with
  | [] => none
  | a2 :: prog2 =>
    if a2 ≠ a then none
    else
      let p0n := if tid then p0 else prog2
      let p1n := if tid then prog2 else p1
      match a with
      | .acquire => if lock = none then some (some tid, p0n, p1n) else none
      | .release => if lock = some tid then some (none, p0n, p1n) else none
      | _ => some (lock, p0n, p1n)

/-- Runs an interleaved trace, returning the final lock state and the
remaining programs; none when the trace violates the lock discipline
or the program order. -/
def runTrace : Option Bool → List LockAction → List LockAction →
    List (Bool × LockAction) →
    Option (Option Bool × List LockAction × List LockAction)
  | lock, p0, p1, [] => some (lock, p0, p1)
  | lock, p0, p1, (tid, a) :: rest =>
    match stepAction lock p0 p1 tid a with
    | some (l2, q0, q1) => runTrace l2 q0 q1 rest
    | none => none

/-- A complete interleaved execution of two mutating calls. -/
def validTrace (t : List (Bool × LockAction)) : Bool :=
  match runTrace none mutOpProgram mutOpProgram t with
  | some (_, p0, p1) => p0.isEmpty && p1.isEmpty
  | none => false

/-- The segment of a trace strictly between a task's mutation and its
file write. -/
def betweenMutateAndPersist (t : List (Bool × LockAction)) (tid : Bool) :
    List (Bool × LockAction) :=
  ((t.dropWhile (fun p => p != (tid, .mutate))).drop 1).takeWhile
    (fun p => p != (tid, .persist))

/-- The claimed discipline: between a task's mutation and the
completion of its persist, the other task performs no action at all
(one lock-held critical section covering both). -/
def persistInCriticalSection (t : List (Bool × LockAction)) : Bool :=
  (betweenMutateAndPersist t false).all (fun p => p.1 == false) &&
  (betweenMutateAndPersist t true).all (fun p => p.1 == true)

/-- Program suffixes whose next action runs while the task holds the
lock. -/
def inLockedSection : List LockAction → Bool
  | .mutate :: _ => true
  | .serialize :: _ => true
  | .release :: _ => true
  | _ => false

/-- Scheduler-state sanity: both residual programs are suffixes of the
operation program, and a task inside a lock-held section is the lock
holder. -/
def GoodB (lock : Option Bool) (p0 p1 : List LockAction) : Bool :=
  decide (p0 ∈ mutOpProgram.tails) && decide (p1 ∈ mutOpProgram.tails) &&
  (!inLockedSection p0 || lock == some false) &&
  (!inLockedSection p1 || lock == some true)

theorem lockCover (lock : Option Bool) :
    lock ∈ [none, some false, some true] := by
  rcases lock with _ | b
  · simp
  · cases b <;> simp

theorem actionCover (a : LockAction) :
    a ∈ [LockAction.acquire, .release, .mutate, .serialize, .persist] := by
  cases a <;> simp

theorem boolCover (b : Bool) : b ∈ [false, true] := by cases b <;> simp

/-- Exhaustive check over the finite scheduler state space: every step
from a sane state lands in a sane state. -/
theorem stepAction_good_enum :
    ∀ lock ∈ [none, some false, some true],
      ∀ p0 ∈ mutOpProgram.tails, ∀ p1 ∈ mutOpProgram.tails,
        ∀ tid ∈ [false, true],
          ∀ a ∈ [LockAction.acquire, .release, .mutate, .serialize, .persist],
            GoodB lock p0 p1 = true →
            (match stepAction lock p0 p1 tid a with
             | some (l3, q2, q3) => GoodB l3 q2 q3
             | none => true) = true := by decide

/-- Exhaustive check: a step consumes exactly the head of the chosen
task's program, leaving the other program untouched. -/
theorem stepAction_consumes_enum :
    ∀ lock ∈ [none, some false, some true],
      ∀ p0 ∈ mutOpProgram.tails, ∀ p1 ∈ mutOpProgram.tails,
        ∀ tid ∈ [false, true],
          ∀ a ∈ [LockAction.acquire, .release, .mutate, .serialize, .persist],
            (match stepAction lock p0 p1 tid a with
             | some (_l3, q2, q3) =>
               decide ((tid = false → p0 = a :: q2 ∧ q3 = p1) ∧
                       (tid = true → p1 = a :: q3 ∧ q2 = p0))
             | none => true) = true := by decide

/-- Running any trace from a sane state keeps the state sane and the
trace's per-task projections are exactly the consumed program
prefixes. -/
theorem runTrace_invariant (t : List (Bool × LockAction)) :
    ∀ lock p0 p1 l2 q0 q1,
      GoodB lock p0 p1 = true →
      runTrace lock p0 p1 t = some (l2, q0, q1) →
      GoodB l2 q0 q1 = true ∧
      (t.filter (fun p => p.1 == false)).map (·.2) ++ q0 = p0 ∧
      (t.filter (fun p => p.1 == true)).map (·.2) ++ q1 = p1 := by
  induction t with
  | nil =>
    intro lock p0 p1 l2 q0 q1 hg h
    simp only [runTrace, Option.some.injEq, Prod.mk.injEq] at h
    obtain ⟨rfl, rfl, rfl⟩ := h
    exact ⟨hg, by simp, by simp⟩
  | cons hd rest ih =>
    obtain ⟨tid, a⟩ := hd
    intro lock p0 p1 l2 q0 q1 hg h
    simp only [runTrace] at h
    rcases hs : stepAction lock p0 p1 tid a with _ | ⟨l3, q2, q3⟩
    · rw [hs] at h
      exact absurd h (by simp)
    · rw [hs] at h
      have hp0 : p0 ∈ mutOpProgram.tails := by
        have h2 := hg
        unfold GoodB at h2
        simp only [Bool.and_eq_true, decide_eq_true_eq] at h2
        exact h2.1.1.1
      have hp1 : p1 ∈ mutOpProgram.tails := by
        have h2 := hg
        unfold GoodB at h2
        simp only [Bool.and_eq_true, decide_eq_true_eq] at h2
        exact h2.1.1.2
      have hgood := stepAction_good_enum lock (lockCover lock) p0 hp0 p1 hp1
        tid (boolCover tid) a (actionCover a) hg
      rw [hs] at hgood
      have hcons := stepAction_consumes_enum lock (lockCover lock) p0 hp0 p1 hp1
        tid (boolCover tid) a (actionCover a)
      rw [hs] at hcons
      simp only [decide_eq_true_eq] at hcons
      obtain ⟨hfin, hproj0, hproj1⟩ := ih l3 q2 q3 l2 q0 q1 hgood h
      refine ⟨hfin, ?_, ?_⟩
      · cases tid
        · obtain ⟨he0, _⟩ := hcons.1 rfl
          simp only [List.filter_cons, List.map_cons, beq_self_eq_true, if_pos,
            List.cons_append]
          rw [hproj0, he0]
        · obtain ⟨_, he2⟩ := hcons.2 rfl
          simp only [List.filter_cons]
          rw [if_neg (by simp)]
          rw [hproj0, he2]
      · cases tid
        · obtain ⟨_, he1⟩ := hcons.1 rfl
          simp only [List.filter_cons]
          rw [if_neg (by simp)]
          rw [hproj1, he1]
        · obtain ⟨he0, _⟩ := hcons.2 rfl
          simp only [List.filter_cons, List.map_cons, beq_self_eq_true, if_pos,
            List.cons_append]
          rw [hproj1, he0]

/-- In a sane scheduler state the two tasks are never both inside a
lock-held section. -/
theorem goodB_not_both_locked (lock : Option Bool) (p0 p1 : List LockAction)
    (hg : GoodB lock p0 p1 = true) :
    ¬(inLockedSection p0 = true ∧ inLockedSection p1 = true) := by
  rintro ⟨h0, h1⟩
  unfold GoodB at hg
  simp only [Bool.and_eq_true, Bool.or_eq_true, Bool.not_eq_eq_eq_not,
    Bool.not_true, beq_iff_eq] at hg
  rcases hg.1.2 with h2 | h2
  · rw [h0] at h2
    cases h2
  · rcases hg.2 with h3 | h3
    · rw [h1] at h3
      cases h3
    · rw [h2] at h3
      cases h3

/-- A lock-respecting interleaving in which the second call performs
its entire locked work and its file write between the first call's
snapshot serialization and the first call's file write, so the first
call persists its older snapshot last. -/
def staleWriteTrace : List (Bool × LockAction) :=
  [(false, .acquire), (false, .mutate), (false, .release),
   (false, .acquire), (false, .serialize), (false, .release),
   (true, .acquire), (true, .mutate), (true, .release),
   (true, .acquire), (true, .serialize), (true, .release), (true, .persist),
   (false, .persist)]

/-- C10 counterexample: the trace above is a complete execution of two
mutating operations that respects the source's lock placement, yet the
whole second operation — its file write included — runs between the
first operation's mutation and the first operation's file write, which
even lands last.  A single lock-held critical section spanning
mutation and persist, as the claim states, would forbid this
interleaving. -/
theorem persist_outside_lock_counterexample :
    validTrace staleWriteTrace = true ∧
    persistInCriticalSection staleWriteTrace = false ∧
    staleWriteTrace.getLast? = some (false, .persist) := by decide

/-- C10 amended: the single lock serializes the in-memory mutations
and snapshot serializations of concurrent operations (no two lock-held
phases ever overlap), and every completed operation performs its whole
program in source order — mutation, then serialization, then the file
write — before finishing; but the file write runs after the lock is
released, so persist phases of concurrent operations may interleave. -/
theorem lock_serializes_mutations_not_persists
    (t : List (Bool × LockAction)) (lock : Option Bool)
    (p0 p1 : List LockAction) :
    (runTrace none mutOpProgram mutOpProgram t = some (lock, p0, p1) →
      ¬(inLockedSection p0 = true ∧ inLockedSection p1 = true)) ∧
    (validTrace t = true →
      (t.filter (fun p => p.1 == false)).map (·.2) = mutOpProgram ∧
      (t.filter (fun p => p.1 == true)).map (·.2) = mutOpProgram) := by
  constructor
  · intro h
    exact goodB_not_both_locked _ _ _
      (runTrace_invariant t none mutOpProgram mutOpProgram lock p0 p1
        (by decide) h).1
  · intro hv
    unfold validTrace at hv
    rcases hr : runTrace none mutOpProgram mutOpProgram t with _ | ⟨l2, q0, q1⟩
    · rw [hr] at hv
      cases hv
    · rw [hr] at hv
      simp only [Bool.and_eq_true, List.isEmpty_iff] at hv
      obtain ⟨hq0, hq1⟩ := hv
      subst hq0
      subst hq1
      have h2 := runTrace_invariant t none mutOpProgram mutOpProgram l2 [] []
        (by decide) hr
      refine ⟨?_, ?_⟩
      · simpa using h2.2.1
      · simpa using h2.2.2

/-- The fully serial schedule: the first call runs to completion, then
the second. -/
def serialTrace : List (Bool × LockAction) :=
  (mutOpProgram.map fun a => (false, a)) ++ (mutOpProgram.map fun a => (true, a))

/-- Witness for the amended C10 theorem on the serial schedule. -/
theorem lock_serializes_mutations_not_persists_witness :
    ¬(inLockedSection [] = true ∧ inLockedSection [] = true) ∧
    ((serialTrace.filter (fun p => p.1 == false)).map (·.2) = mutOpProgram ∧
      (serialTrace.filter (fun p => p.1 == true)).map (·.2) = mutOpProgram) := by
  have h := lock_serializes_mutations_not_persists serialTrace none [] []
  exact ⟨h.1 (by decide), h.2 (by decide)⟩
